import Mathlib

/-!
Shallow embedding of the FilMarket NEAR contract
(src/contract/src/lib.rs) and verification of its specification.

The contract keeps two keyed stores (storage providers keyed by `id`,
price snapshots keyed by `timestamp`), a per-region activity counter
aggregate, a `latest_timestamp` pointer and an `owner` account id.
All mutating entry points are gated on the caller being the owner and
return silently (after logging) otherwise.
-/

namespace FilMarketSpec

/-- The contract's `f64` values (powers and prices) are only ever stored and
copied verbatim — the contract never compares them or computes with them — so
we model them by `ℚ`. -/
abbrev F64 := Rat

/-- `ActivePerRegion` (lib.rs lines 13-18): totals of active storage
providers per region; the `u32` fields are modelled by `Nat` (they are only
stored and copied, never computed with). -/
structure ActivePerRegion where
  europe : Nat
  asia : Nat
  north_america : Nat
  other : Nat
deriving DecidableEq, Repr

/-- `PricePerRegion` (lib.rs lines 22-31): one price/power snapshot.
`power` is `u128`, `timestamp` is `u64`; both are modelled by `Nat`
(the contract never does arithmetic on them, so no overflow can occur). -/
structure PricePerRegion where
  europe : F64
  asia : F64
  north_america : F64
  other : F64
  global : F64
  fil_price : F64
  power : Nat
  timestamp : Nat
deriving DecidableEq, Repr

/-- `StorageProvider` (lib.rs lines 35-40): one provider listing.
`region` is a `u8` code, modelled by `Nat`. -/
structure StorageProvider where
  id : String
  region : Nat
  power : F64
  price : F64
deriving DecidableEq, Repr

/-! ### The keyed store

Modelled from the spec: `near_sdk::collections::UnorderedMap` is an external
dependency whose source is not part of this repository.  Per the spec (§4.2,
§4.3), lookup/insert/remove are ordinary map operations and iteration order
(`values_as_vector`) is insertion order of first-seen key, stable under
deletions.  We model the store as an ordered association list: `umGet` finds
the first entry with the key, `umInsert` replaces in place when the key is
present and appends otherwise, `umRemove` drops the entries with the key. -/

/-- Lookup: first entry carrying the key. -/
def umGet {K V : Type} [DecidableEq K] : List (K × V) → K → Option V
  | [], _ => none
  | (k', v) :: rest, k => if k' = k then some v else umGet rest k

/-- Insert-or-replace: replace the entry in place when the key is present,
append a new entry otherwise. -/
def umInsert {K V : Type} [DecidableEq K] : List (K × V) → K → V → List (K × V)
  | [], k, v => [(k, v)]
  | (k', v') :: rest, k, v =>
      if k' = k then (k, v) :: rest else (k', v') :: umInsert rest k v

/-- Remove: drop the entries carrying the key. -/
def umRemove {K V : Type} [DecidableEq K] : List (K × V) → K → List (K × V)
  | [], _ => []
  | (k', v') :: rest, k =>
      if k' = k then umRemove rest k else (k', v') :: umRemove rest k

/-- Contract state `FilMarket` (lib.rs lines 44-50). -/
structure FilMarket where
  storage_providers : List (String × StorageProvider)
  price_per_region : List (Nat × PricePerRegion)
  active_per_region : ActivePerRegion
  latest_timestamp : Nat
  owner : String
deriving DecidableEq, Repr

/-- `FilMarket::new` (lib.rs lines 55-69): empty stores, zero counters,
`latest_timestamp = 0`, owner set to the constructing caller. -/
def FilMarket.new (caller : String) : FilMarket :=
  { storage_providers := []
    price_per_region := []
    active_per_region := { europe := 0, asia := 0, north_america := 0, other := 0 }
    latest_timestamp := 0
    owner := caller }

/-- The `empty_sp` sentinel record (lib.rs lines 83-88). -/
def empty_sp : StorageProvider :=
  { id := "", region := 0, power := 0, price := 0 }

/-- One iteration of the loop in `update_storage_providers`
(lib.rs lines 82-100): look the input's `id` up, defaulting to `empty_sp`;
if the looked-up record's `id` is empty, take `id` and `region` from the
input; always take `power` and `price` from the input; insert under the
resulting record's `id`. -/
def upsertProvider (m : List (String × StorageProvider)) (sp : StorageProvider) :
    List (String × StorageProvider) :=
  let storage_provider := (umGet m sp.id).getD empty_sp
  let storage_provider :=
    if storage_provider.id = "" then
      { storage_provider with id := sp.id, region := sp.region }
    else storage_provider
  let storage_provider := { storage_provider with power := sp.power, price := sp.price }
  umInsert m storage_provider.id storage_provider

/-- `update_storage_providers` (lib.rs lines 72-101).  Entry points return
the new state together with the log lines emitted via `env::log_str`. -/
def update_storage_providers (storage_providers : List StorageProvider)
    (caller : String) (st : FilMarket) : FilMarket × List String :=
  if caller ≠ st.owner then
    (st, ["update_storage_providers(): account_id " ++ caller ++ " is not owner"])
  else
    ({ st with storage_providers := storage_providers.foldl upsertProvider st.storage_providers },
     ["update_storage_providers(): account_id " ++ caller ++ " storage providers "
        ++ toString storage_providers.length])

/-- `delete_storage_providers` (lib.rs lines 104-117). -/
def delete_storage_providers (ids : List String) (caller : String) (st : FilMarket) :
    FilMarket × List String :=
  if caller ≠ st.owner then
    (st, ["delete_storage_providers(): account_id " ++ caller ++ " is not owner"])
  else
    ({ st with storage_providers := ids.foldl umRemove st.storage_providers },
     ["delete_storage_providers(): account_id " ++ caller ++ " storage providers "
        ++ toString ids.length])

/-- `get_storage_providers` (lib.rs lines 120-123): the stored records in
store iteration order (`values_as_vector`). -/
def get_storage_providers (st : FilMarket) : List StorageProvider :=
  st.storage_providers.map (·.2)

/-- `set_active_per_region` (lib.rs lines 126-135). -/
def set_active_per_region (a : ActivePerRegion) (caller : String) (st : FilMarket) :
    FilMarket × List String :=
  if caller ≠ st.owner then
    (st, ["set_active_per_region(): account_id " ++ caller ++ " is not owner"])
  else
    ({ st with active_per_region := a }, [])

/-- `get_active_per_region` (lib.rs lines 138-147): returns a field-wise copy. -/
def get_active_per_region (st : FilMarket) : ActivePerRegion :=
  { europe := st.active_per_region.europe
    asia := st.active_per_region.asia
    north_america := st.active_per_region.north_america
    other := st.active_per_region.other }

/-- The `empty_ppr` sentinel record (lib.rs lines 158-167 and 194-203). -/
def empty_ppr : PricePerRegion :=
  { europe := 0, asia := 0, north_america := 0, other := 0, global := 0
    fil_price := 0, power := 0, timestamp := 0 }

/-- `set_price_per_region` (lib.rs lines 150-184): look the input's
`timestamp` up, defaulting to `empty_ppr`; if the looked-up record's
`timestamp` is 0, take it from the input; overwrite every other field from
the input; insert under the record's `timestamp`; unconditionally set
`latest_timestamp` to the input's `timestamp`. -/
def set_price_per_region (p : PricePerRegion) (caller : String) (st : FilMarket) :
    FilMarket × List String :=
  if caller ≠ st.owner then
    (st, ["set_price_per_region(): account_id " ++ caller ++ " is not owner"])
  else
    let ppr := (umGet st.price_per_region p.timestamp).getD empty_ppr
    let ppr := if ppr.timestamp = 0 then { ppr with timestamp := p.timestamp } else ppr
    let ppr := { ppr with
                 europe := p.europe
                 asia := p.asia
                 north_america := p.north_america
                 other := p.other
                 global := p.global
                 fil_price := p.fil_price
                 power := p.power }
    ({ st with price_per_region := umInsert st.price_per_region ppr.timestamp ppr,
               latest_timestamp := p.timestamp }, [])

/-- `get_price_per_region_list` (lib.rs lines 187-190). -/
def get_price_per_region_list (st : FilMarket) : List PricePerRegion :=
  st.price_per_region.map (·.2)

/-- `get_latest_price_per_region` (lib.rs lines 193-207): the record at
`latest_timestamp`, or the sentinel when absent. -/
def get_latest_price_per_region (st : FilMarket) : PricePerRegion :=
  (umGet st.price_per_region st.latest_timestamp).getD empty_ppr

/-- `delete_price_per_region` (lib.rs lines 210-223).  NOTE: the source's
unauthorized-caller log line at lib.rs line 214 names `set_price_per_region`,
not `delete_price_per_region`; we reproduce it verbatim. -/
def delete_price_per_region (timestamps : List Nat) (caller : String) (st : FilMarket) :
    FilMarket × List String :=
  if caller ≠ st.owner then
    (st, ["set_price_per_region(): account_id " ++ caller ++ " is not owner"])
  else
    ({ st with price_per_region := timestamps.foldl umRemove st.price_per_region },
     ["delete_price_per_region(): account_id " ++ caller ++ " entries "
        ++ toString timestamps.length])

/-! ### Call traces -/

/-- One external call to a mutating entry point, with its caller. -/
inductive Op where
  | updateSPs : String → List StorageProvider → Op
  | deleteSPs : String → List String → Op
  | setActive : String → ActivePerRegion → Op
  | setPrice : String → PricePerRegion → Op
  | deletePrices : String → List Nat → Op
deriving DecidableEq, Repr

/-- The state transition of one call (logs dropped). -/
def step (st : FilMarket) (op : Op) : FilMarket :=
  match op with
  | .updateSPs c l => (update_storage_providers l c st).1
  | .deleteSPs c l => (delete_storage_providers l c st).1
  | .setActive c a => (set_active_per_region a c st).1
  | .setPrice c p => (set_price_per_region p c st).1
  | .deletePrices c l => (delete_price_per_region l c st).1

/-- Run a sequence of calls. -/
def run (ops : List Op) (st : FilMarket) : FilMarket :=
  ops.foldl step st

/-! ### Store coherence invariants -/

/-- Every provider entry is stored under a key equal to its record's `id`. -/
def spCoherent (m : List (String × StorageProvider)) : Prop :=
  ∀ p ∈ m, p.2.id = p.1

/-- Every snapshot entry is stored under a key equal to its record's
`timestamp`. -/
def pprCoherent (m : List (Nat × PricePerRegion)) : Prop :=
  ∀ p ∈ m, p.2.timestamp = p.1

instance (m : List (String × StorageProvider)) : Decidable (spCoherent m) :=
  inferInstanceAs (Decidable (∀ p ∈ m, p.2.id = p.1))

instance (m : List (Nat × PricePerRegion)) : Decidable (pprCoherent m) :=
  inferInstanceAs (Decidable (∀ p ∈ m, p.2.timestamp = p.1))

/-- The record that one `update_storage_providers` loop iteration writes for
input `sp`: a record built wholly from the input when the key is absent or the
looked-up record carries the empty id, otherwise the stored record with only
`power` and `price` overwritten. -/
def upsertResult (m : List (String × StorageProvider)) (sp : StorageProvider) :
    StorageProvider :=
  match umGet m sp.id with
  | none => { id := sp.id, region := sp.region, power := sp.power, price := sp.price }
  | some r =>
      if r.id = "" then
        { id := sp.id, region := sp.region, power := sp.power, price := sp.price }
      else
        { id := r.id, region := r.region, power := sp.power, price := sp.price }

/-- Insertion order of first-seen ids contributed by one authorized
`update_storage_providers` call: new keys are appended, existing keys keep
their position (spec §4.2). -/
def firstSeenUpsert (acc : List String) (sps : List StorageProvider) : List String :=
  sps.foldl (fun a sp => if sp.id ∈ a then a else a ++ [sp.id]) acc

/-- Expected provider key order after one call, computed from the trace alone
(spec §4.2: insertion order of first-seen key; deletions remove keys; calls by
non-owners have no effect). -/
def specKeyStep (owner : String) (acc : List String) (op : Op) : List String :=
  match op with
  | .updateSPs c sps => if c = owner then firstSeenUpsert acc sps else acc
  | .deleteSPs c ids => if c = owner then acc.filter (fun k => ¬ k ∈ ids) else acc
  | _ => acc

/-- Expected provider key order for a whole trace, computed from the trace
alone (spec §4.2). -/
def specProviderKeys (owner : String) (ops : List Op) : List String :=
  ops.foldl (specKeyStep owner) []

/-- The region of the first input record carrying a given `id` across a
sequence of `update_storage_providers` batches ("the first call that ever
introduced that id"). -/
def firstRegion (bs : List (List StorageProvider)) (id : String) : Option Nat :=
  match bs with
  | [] => none
  | b :: rest =>
      match b.find? (fun sp => sp.id == id) with
      | some sp => some sp.region
      | none => firstRegion rest id

/-- A call that never submits a zero-timestamp snapshot. -/
def zeroFreeOp : Op → Prop
  | .setPrice _ p => p.timestamp ≠ 0
  | _ => True

instance (op : Op) : Decidable (zeroFreeOp op) := by
  cases op <;> simp only [zeroFreeOp] <;> infer_instance

/-- Does `pat` occur as a contiguous subsequence of the second list? -/
def containsSeq (pat : List Char) : List Char → Bool
  | [] => pat.isEmpty
  | c :: rest => pat.isPrefixOf (c :: rest) || containsSeq pat rest

/-- Substring test on strings (used to inspect emitted log lines). -/
def containsSubstr (s pat : String) : Bool :=
  containsSeq pat.data s.data

/-! ### Basic lemmas about the keyed store -/

theorem umGet_umInsert {K V : Type} [DecidableEq K] (m : List (K × V)) (k k' : K) (v : V) :
    umGet (umInsert m k v) k' = if k = k' then some v else umGet m k' := by
  induction m with
  | nil =>
      by_cases hkk' : k = k' <;> simp [umInsert, umGet, hkk']
  | cons hd tl ih =>
      obtain ⟨a, b⟩ := hd
      by_cases hak : a = k
      · subst hak
        by_cases hkk' : a = k' <;> simp [umInsert, umGet, hkk']
      · by_cases hkk' : k = k'
        · subst hkk'
          simp [umInsert, umGet, hak, ih]
        · by_cases hak' : a = k' <;>
            simp [umInsert, umGet, hak, hak', hkk', ih, Ne.symm hak, Ne.symm hkk']

theorem umGet_umRemove {K V : Type} [DecidableEq K] (m : List (K × V)) (k k' : K) :
    umGet (umRemove m k) k' = if k = k' then none else umGet m k' := by
  induction m with
  | nil =>
      by_cases hkk' : k = k' <;> simp [umRemove, umGet, hkk']
  | cons hd tl ih =>
      obtain ⟨a, b⟩ := hd
      by_cases hak : a = k
      · subst hak
        by_cases hkk' : a = k'
        · subst hkk'
          simp [umRemove, umGet, ih]
        · simp [umRemove, umGet, hkk', ih]
      · by_cases hkk' : k = k'
        · subst hkk'
          simp [umRemove, umGet, hak, ih, Ne.symm hak]
        · by_cases hak' : a = k' <;>
            simp [umRemove, umGet, hak, hak', hkk', ih, Ne.symm hak, Ne.symm hkk']

theorem keys_umInsert {K V : Type} [DecidableEq K] (m : List (K × V)) (k : K) (v : V) :
    (umInsert m k v).map Prod.fst =
      if k ∈ m.map Prod.fst then m.map Prod.fst else m.map Prod.fst ++ [k] := by
  induction m with
  | nil => simp [umInsert]
  | cons hd tl ih =>
      obtain ⟨a, b⟩ := hd
      by_cases hak : a = k
      · subst hak
        simp [umInsert]
      · by_cases hk : k ∈ tl.map Prod.fst <;>
          simp [umInsert, hak, hk, ih, Ne.symm hak]

theorem keys_umRemove {K V : Type} [DecidableEq K] (m : List (K × V)) (k : K) :
    (umRemove m k).map Prod.fst = (m.map Prod.fst).filter (fun x => ¬ x = k) := by
  induction m with
  | nil => simp [umRemove]
  | cons hd tl ih =>
      obtain ⟨a, b⟩ := hd
      by_cases hak : a = k
      · subst hak
        simp [umRemove, ih]
      · simp [umRemove, hak, ih]

theorem mem_keys_iff_isSome {K V : Type} [DecidableEq K] (m : List (K × V)) (k : K) :
    k ∈ m.map Prod.fst ↔ (umGet m k).isSome := by
  induction m with
  | nil => simp [umGet]
  | cons hd tl ih =>
      obtain ⟨a, b⟩ := hd
      by_cases hak : a = k
      · subst hak
        simp [umGet]
      · simp [umGet, hak, ih, Ne.symm hak]

theorem umGet_mem {K V : Type} [DecidableEq K] {m : List (K × V)} {k : K} {v : V}
    (h : umGet m k = some v) : (k, v) ∈ m := by
  induction m with
  | nil => simp [umGet] at h
  | cons hd tl ih =>
      obtain ⟨a, b⟩ := hd
      by_cases hak : a = k
      · subst hak
        simp [umGet] at h
        subst h
        exact List.mem_cons_self _ _
      · simp only [umGet, if_neg hak] at h
        exact List.mem_cons_of_mem _ (ih h)

theorem mem_umInsert {K V : Type} [DecidableEq K] {m : List (K × V)} {k : K} {v : V}
    {p : K × V} (h : p ∈ umInsert m k v) : p = (k, v) ∨ p ∈ m := by
  induction m with
  | nil =>
      simp [umInsert] at h
      exact Or.inl h
  | cons hd tl ih =>
      obtain ⟨a, b⟩ := hd
      by_cases hak : a = k
      · subst hak
        simp only [umInsert, if_pos rfl] at h
        rcases List.mem_cons.1 h with h | h
        · exact Or.inl h
        · exact Or.inr (List.mem_cons_of_mem _ h)
      · simp only [umInsert, if_neg hak] at h
        rcases List.mem_cons.1 h with h | h
        · exact Or.inr (by simp [h])
        · rcases ih h with h | h
          · exact Or.inl h
          · exact Or.inr (List.mem_cons_of_mem _ h)

theorem mem_umRemove {K V : Type} [DecidableEq K] {m : List (K × V)} {k : K}
    {p : K × V} (h : p ∈ umRemove m k) : p ∈ m := by
  induction m with
  | nil => simp [umRemove] at h
  | cons hd tl ih =>
      obtain ⟨a, b⟩ := hd
      by_cases hak : a = k
      · subst hak
        simp only [umRemove, if_pos rfl] at h
        exact List.mem_cons_of_mem _ (ih h)
      · simp only [umRemove, if_neg hak] at h
        rcases List.mem_cons.1 h with h | h
        · simp [h]
        · exact List.mem_cons_of_mem _ (ih h)

theorem umGet_foldRemove {K V : Type} [DecidableEq K] (ids : List K) :
    ∀ (m : List (K × V)) (k : K),
      umGet (ids.foldl umRemove m) k = if k ∈ ids then none else umGet m k := by
  induction ids with
  | nil => intro m k; simp
  | cons i is ih =>
      intro m k
      simp only [List.foldl_cons, ih, umGet_umRemove]
      by_cases hk : k = i
      · subst hk
        by_cases hmem : k ∈ is <;> simp [hmem]
      · by_cases hmem : k ∈ is <;> simp [hmem, hk, Ne.symm hk]

/-! ### Lemmas about one provider upsert -/

theorem upsertProvider_eq (m : List (String × StorageProvider)) (sp : StorageProvider) :
    upsertProvider m sp = umInsert m (upsertResult m sp).id (upsertResult m sp) := by
  unfold upsertProvider upsertResult
  cases h : umGet m sp.id with
  | none => simp [h, empty_sp]
  | some r =>
      by_cases hr : r.id = "" <;> simp [h, hr]

theorem upsertResult_id {m : List (String × StorageProvider)} {sp : StorageProvider}
    (coh : spCoherent m) : (upsertResult m sp).id = sp.id := by
  unfold upsertResult
  cases h : umGet m sp.id with
  | none => rfl
  | some r =>
      have hid : r.id = sp.id := coh (sp.id, r) (umGet_mem h)
      by_cases hr : r.id = ""
      · simp [hr]
      · have hsp : ¬ sp.id = "" := by rw [← hid]; exact hr
        simp [hr, hid, hsp]

theorem umGet_upsertProvider {m : List (String × StorageProvider)} {sp : StorageProvider}
    (coh : spCoherent m) (k : String) :
    umGet (upsertProvider m sp) k =
      if sp.id = k then some (upsertResult m sp) else umGet m k := by
  rw [upsertProvider_eq, upsertResult_id coh, umGet_umInsert]

theorem spCoherent_upsertProvider {m : List (String × StorageProvider)}
    {sp : StorageProvider} (coh : spCoherent m) : spCoherent (upsertProvider m sp) := by
  rw [upsertProvider_eq]
  intro p hp
  rcases mem_umInsert hp with h | h
  · subst h; rfl
  · exact coh p h

theorem spCoherent_foldUpsert (l : List StorageProvider) :
    ∀ m, spCoherent m → spCoherent (l.foldl upsertProvider m) := by
  induction l with
  | nil => intro m coh; exact coh
  | cons sp rest ih =>
      intro m coh
      exact ih _ (spCoherent_upsertProvider coh)

theorem coherent_foldRemove {K V : Type} [DecidableEq K] (P : K × V → Prop) (ids : List K) :
    ∀ m, (∀ p ∈ m, P p) → ∀ p ∈ ids.foldl umRemove m, P p := by
  induction ids with
  | nil => intro m h; exact h
  | cons i is ih =>
      intro m h
      exact ih _ (fun p hp => h p (mem_umRemove hp))

theorem keys_upsertProvider {m : List (String × StorageProvider)} {sp : StorageProvider}
    (coh : spCoherent m) :
    (upsertProvider m sp).map Prod.fst =
      if sp.id ∈ m.map Prod.fst then m.map Prod.fst else m.map Prod.fst ++ [sp.id] := by
  rw [upsertProvider_eq, upsertResult_id coh, keys_umInsert]

theorem keys_foldUpsert (l : List StorageProvider) :
    ∀ m, spCoherent m →
      (l.foldl upsertProvider m).map Prod.fst = firstSeenUpsert (m.map Prod.fst) l := by
  induction l with
  | nil => intro m _; simp [firstSeenUpsert]
  | cons sp rest ih =>
      intro m coh
      rw [List.foldl_cons, ih _ (spCoherent_upsertProvider coh), keys_upsertProvider coh]
      simp [firstSeenUpsert]

theorem keys_foldRemove {K V : Type} [DecidableEq K] (ids : List K) :
    ∀ m : List (K × V),
      (ids.foldl umRemove m).map Prod.fst = (m.map Prod.fst).filter (fun x => ¬ x ∈ ids) := by
  induction ids with
  | nil => intro m; simp
  | cons i is ih =>
      intro m
      rw [List.foldl_cons, ih, keys_umRemove, List.filter_filter]
      apply List.filter_congr
      intro x _
      simp [List.mem_cons, not_or, Bool.and_comm]

theorem values_ids {m : List (String × StorageProvider)} (coh : spCoherent m) :
    (m.map (·.2)).map StorageProvider.id = m.map Prod.fst := by
  induction m with
  | nil => rfl
  | cons hd tl ih =>
      obtain ⟨a, b⟩ := hd
      have : b.id = a := coh (a, b) (List.mem_cons_self _ _)
      simp only [List.map_cons, this]
      rw [ih (fun p hp => coh p (List.mem_cons_of_mem _ hp))]

theorem values_find {m : List (String × StorageProvider)} (coh : spCoherent m) (k : String) :
    (m.map (·.2)).find? (fun r => r.id == k) = umGet m k := by
  induction m with
  | nil => rfl
  | cons hd tl ih =>
      obtain ⟨a, b⟩ := hd
      have hb : b.id = a := coh (a, b) (List.mem_cons_self _ _)
      have ihtl := ih (fun p hp => coh p (List.mem_cons_of_mem _ hp))
      by_cases hak : a = k
      · simp [umGet, hak, hb]
      · simp [umGet, hak, hb, ihtl]

/-! ### Step and run lemmas -/

theorem step_owner (st : FilMarket) (op : Op) : (step st op).owner = st.owner := by
  cases op <;>
    simp only [step, update_storage_providers, delete_storage_providers,
      set_active_per_region, set_price_per_region, delete_price_per_region] <;>
    split <;> rfl

theorem step_spCoherent {st : FilMarket} (coh : spCoherent st.storage_providers) (op : Op) :
    spCoherent (step st op).storage_providers := by
  cases op with
  | updateSPs c l =>
      simp only [step, update_storage_providers]
      split
      · exact coh
      · exact spCoherent_foldUpsert l _ coh
  | deleteSPs c l =>
      simp only [step, delete_storage_providers]
      split
      · exact coh
      · exact coherent_foldRemove _ l _ coh
  | setActive c a =>
      simp only [step, set_active_per_region]
      split <;> exact coh
  | setPrice c p =>
      simp only [step, set_price_per_region]
      split <;> exact coh
  | deletePrices c l =>
      simp only [step, delete_price_per_region]
      split <;> exact coh

theorem step_pprCoherent {st : FilMarket} (coh : pprCoherent st.price_per_region) (op : Op) :
    pprCoherent (step st op).price_per_region := by
  cases op with
  | updateSPs c l =>
      simp only [step, update_storage_providers]
      split <;> exact coh
  | deleteSPs c l =>
      simp only [step, delete_storage_providers]
      split <;> exact coh
  | setActive c a =>
      simp only [step, set_active_per_region]
      split <;> exact coh
  | setPrice c p =>
      simp only [step, set_price_per_region]
      split
      · exact coh
      · intro q hq
        rcases mem_umInsert hq with h | h
        · subst h; rfl
        · exact coh q h
  | deletePrices c l =>
      simp only [step, delete_price_per_region]
      split
      · exact coh
      · exact coherent_foldRemove _ l _ coh

theorem run_owner (ops : List Op) : ∀ st, (run ops st).owner = st.owner := by
  induction ops with
  | nil => intro st; rfl
  | cons op rest ih =>
      intro st
      simp only [run, List.foldl_cons]
      have h := ih (step st op)
      simp only [run] at h
      rw [h, step_owner]

theorem run_spCoherent (ops : List Op) :
    ∀ st, spCoherent st.storage_providers → spCoherent (run ops st).storage_providers := by
  induction ops with
  | nil => intro st coh; exact coh
  | cons op rest ih =>
      intro st coh
      simp only [run, List.foldl_cons]
      exact ih (step st op) (step_spCoherent coh op)

theorem run_pprCoherent (ops : List Op) :
    ∀ st, pprCoherent st.price_per_region → pprCoherent (run ops st).price_per_region := by
  induction ops with
  | nil => intro st coh; exact coh
  | cons op rest ih =>
      intro st coh
      simp only [run, List.foldl_cons]
      exact ih (step st op) (step_pprCoherent coh op)

theorem step_keys {st : FilMarket} {o : String} (hown : st.owner = o)
    (coh : spCoherent st.storage_providers) (op : Op) :
    (step st op).storage_providers.map Prod.fst =
      specKeyStep o (st.storage_providers.map Prod.fst) op := by
  cases op with
  | updateSPs c l =>
      simp only [step, update_storage_providers, specKeyStep]
      by_cases hc : c = o
      · have hcs : ¬ c ≠ st.owner := by simp [hown, hc]
        rw [if_neg hcs, if_pos hc]
        exact keys_foldUpsert l _ coh
      · have hcs : c ≠ st.owner := by rw [hown]; exact hc
        rw [if_pos hcs, if_neg hc]
  | deleteSPs c l =>
      simp only [step, delete_storage_providers, specKeyStep]
      by_cases hc : c = o
      · have hcs : ¬ c ≠ st.owner := by simp [hown, hc]
        rw [if_neg hcs, if_pos hc]
        exact keys_foldRemove l _
      · have hcs : c ≠ st.owner := by rw [hown]; exact hc
        rw [if_pos hcs, if_neg hc]
  | setActive c a =>
      simp only [step, set_active_per_region, specKeyStep]
      split <;> rfl
  | setPrice c p =>
      simp only [step, set_price_per_region, specKeyStep]
      split <;> rfl
  | deletePrices c l =>
      simp only [step, delete_price_per_region, specKeyStep]
      split <;> rfl

theorem run_keys (ops : List Op) (o : String) :
    ∀ st, st.owner = o → spCoherent st.storage_providers →
      (run ops st).storage_providers.map Prod.fst =
        ops.foldl (specKeyStep o) (st.storage_providers.map Prod.fst) := by
  induction ops with
  | nil => intro st _ _; rfl
  | cons op rest ih =>
      intro st hown coh
      simp only [run, List.foldl_cons]
      have h2 := ih (step st op) ((step_owner st op).trans hown) (step_spCoherent coh op)
      simp only [run] at h2
      rw [h2, step_keys hown coh op]

/-! ### Characterizations of the price-snapshot operations -/

theorem set_price_per_region_owner {p : PricePerRegion} {st : FilMarket} {caller : String}
    (hc : caller = st.owner) (hcoh : pprCoherent st.price_per_region) :
    (set_price_per_region p caller st).1 =
      { st with price_per_region := umInsert st.price_per_region p.timestamp p
                latest_timestamp := p.timestamp } := by
  subst hc
  simp only [set_price_per_region, ne_eq, not_true_eq_false, if_false]
  cases hg : umGet st.price_per_region p.timestamp with
  | none => simp [hg, empty_ppr]
  | some r =>
      have hr : r.timestamp = p.timestamp := hcoh (p.timestamp, r) (umGet_mem hg)
      by_cases h0 : r.timestamp = 0
      · simp [hg, h0, hr]
      · simp only [hg, Option.getD_some, if_neg h0]
        rw [hr]

/-! ### Region tracking through provider upserts -/

theorem region_foldUpsert (l : List StorageProvider) {id : String} (hid : id ≠ "") :
    ∀ m, spCoherent m →
      (umGet (l.foldl upsertProvider m) id).map StorageProvider.region =
        match umGet m id with
        | some r => some r.region
        | none => (l.find? (fun sp => sp.id == id)).map StorageProvider.region := by
  induction l with
  | nil =>
      intro m _
      cases h : umGet m id <;> simp [h]
  | cons sp rest ih =>
      intro m coh
      rw [List.foldl_cons, ih _ (spCoherent_upsertProvider coh), umGet_upsertProvider coh]
      by_cases hsp : sp.id = id
      · rw [if_pos hsp]
        cases h : umGet m id with
        | some r =>
            have hrid : r.id = id := coh (id, r) (umGet_mem h)
            have hrne : ¬ r.id = "" := by rw [hrid]; exact hid
            simp [upsertResult, hsp, h, hrne, hrid, hid]
        | none =>
            have hb : (sp.id == id) = true := by simp [hsp]
            simp [upsertResult, hsp, h, List.find?_cons, hb]
      · rw [if_neg hsp]
        have hb : (sp.id == id) = false := by simp [hsp]
        cases h : umGet m id <;> simp [h, List.find?_cons, hb]

theorem region_runBatches (bs : List (List StorageProvider)) {id : String} (hid : id ≠ "")
    (o : String) :
    ∀ st, st.owner = o → spCoherent st.storage_providers →
      (umGet (run (bs.map (Op.updateSPs o)) st).storage_providers id).map
          StorageProvider.region =
        match umGet st.storage_providers id with
        | some r => some r.region
        | none => firstRegion bs id := by
  induction bs with
  | nil =>
      intro st _ _
      cases h : umGet st.storage_providers id <;> simp [run, firstRegion, h]
  | cons b rest ih =>
      intro st hown coh
      simp only [List.map_cons, run, List.foldl_cons]
      have hstep : step st (Op.updateSPs o b) =
          { st with storage_providers := b.foldl upsertProvider st.storage_providers } := by
        simp [step, update_storage_providers, hown]
      rw [hstep]
      have hcoh2 : spCoherent (b.foldl upsertProvider st.storage_providers) :=
        spCoherent_foldUpsert b _ coh
      have ih2 := ih { st with storage_providers := b.foldl upsertProvider st.storage_providers }
        hown hcoh2
      simp only [run] at ih2
      rw [ih2]
      have hreg := region_foldUpsert b hid st.storage_providers coh
      cases h : umGet st.storage_providers id with
      | some r =>
          rw [h] at hreg
          obtain ⟨r', hr', hreg'⟩ := Option.map_eq_some'.1 hreg
          simp [hr', hreg']
      | none =>
          rw [h] at hreg
          cases hf : b.find? (fun sp => sp.id == id) with
          | some sp =>
              rw [hf] at hreg
              obtain ⟨r', hr', hreg'⟩ := Option.map_eq_some'.1 hreg
              simp [hr', hreg', firstRegion, hf]
          | none =>
              rw [hf] at hreg
              have := Option.map_eq_none'.1 hreg
              simp [this, firstRegion, hf]

/-! ### The zero timestamp key -/

theorem step_zeroFree {st : FilMarket} (coh : pprCoherent st.price_per_region)
    (hz : umGet st.price_per_region 0 = none) {op : Op} (hop : zeroFreeOp op) :
    umGet (step st op).price_per_region 0 = none := by
  cases op with
  | updateSPs c l =>
      simp only [step, update_storage_providers]
      split <;> exact hz
  | deleteSPs c l =>
      simp only [step, delete_storage_providers]
      split <;> exact hz
  | setActive c a =>
      simp only [step, set_active_per_region]
      split <;> exact hz
  | setPrice c p =>
      have hp : p.timestamp ≠ 0 := hop
      by_cases hc : c = st.owner
      · have hchar := @set_price_per_region_owner p st c hc coh
        simp only [step]
        rw [hchar]
        simp only [umGet_umInsert]
        rw [if_neg hp]
        exact hz
      · simp only [step, set_price_per_region]
        rw [if_pos hc]
        exact hz
  | deletePrices c l =>
      simp only [step, delete_price_per_region]
      split
      · exact hz
      · rw [umGet_foldRemove]
        by_cases h0 : (0 : Nat) ∈ l <;> simp [h0, hz]

theorem run_zeroFree (ops : List Op) :
    ∀ st, pprCoherent st.price_per_region → umGet st.price_per_region 0 = none →
      (∀ op ∈ ops, zeroFreeOp op) → umGet (run ops st).price_per_region 0 = none := by
  induction ops with
  | nil => intro st _ hz _; exact hz
  | cons op rest ih =>
      intro st coh hz hops
      simp only [run, List.foldl_cons]
      exact ih (step st op) (step_pprCoherent coh op)
        (step_zeroFree coh hz (hops op (List.mem_cons_self _ _)))
        (fun o ho => hops o (List.mem_cons_of_mem _ ho))

/-! ### The claims -/

/-- C1 counterexample: the first-write-wins-on-region policy fails for the
empty id.  Two owner-authorized `update_storage_providers` calls introducing
id `""` with regions 1 and then 2 leave region 2 stored, while the first call
that introduced the id supplied region 1. -/
theorem C1_counterexample :
    (umGet (run [Op.updateSPs "carol" [{ id := "", region := 1, power := 0, price := 0 }],
                 Op.updateSPs "carol" [{ id := "", region := 2, power := 0, price := 0 }]]
        (FilMarket.new "carol")).storage_providers "").map StorageProvider.region = some 2
    ∧ firstRegion [[{ id := "", region := 1, power := 0, price := 0 }],
                   [{ id := "", region := 2, power := 0, price := 0 }]] "" = some 1 := by
  exact ⟨rfl, rfl⟩

/-- C1 (amended): for every NONEMPTY id, over any sequence of owner-authorized
`update_storage_providers` calls starting from a fresh contract, the final
region stored for the id equals the region of the first input record that ever
introduced that id, regardless of later calls' region values. -/
theorem C1_theorem {o id : String} (hid : id ≠ "") (bs : List (List StorageProvider)) :
    (umGet (run (bs.map (Op.updateSPs o)) (FilMarket.new o)).storage_providers id).map
        StorageProvider.region = firstRegion bs id := by
  have h := region_runBatches bs hid o (FilMarket.new o) rfl
    (fun p hp => absurd hp (List.not_mem_nil p))
  exact h

/-- C1 witness: instantiating the amended claim at id `"a"` introduced with
region 3 and later upserted with region 7. -/
theorem C1_theorem_witness :
    (umGet (run ([[{ id := "a", region := 3, power := 1, price := 2 }],
                  [{ id := "a", region := 7, power := 5, price := 6 }]].map
        (Op.updateSPs "carol")) (FilMarket.new "carol")).storage_providers "a").map
        StorageProvider.region =
      firstRegion [[{ id := "a", region := 3, power := 1, price := 2 }],
                   [{ id := "a", region := 7, power := 5, price := 6 }]] "a" :=
  C1_theorem (by decide) [[{ id := "a", region := 3, power := 1, price := 2 }],
                          [{ id := "a", region := 7, power := 5, price := 6 }]]

/-- C2: calling any of the five mutating entry points with a caller different
from the stored owner leaves the state unchanged; the operations are total
functions returning normally (the log line is their only other output). -/
theorem C2_theorem {caller : String} {st : FilMarket} (h : caller ≠ st.owner)
    (sps : List StorageProvider) (ids : List String) (a : ActivePerRegion)
    (p : PricePerRegion) (ts : List Nat) :
    (update_storage_providers sps caller st).1 = st ∧
    (delete_storage_providers ids caller st).1 = st ∧
    (set_active_per_region a caller st).1 = st ∧
    (set_price_per_region p caller st).1 = st ∧
    (delete_price_per_region ts caller st).1 = st := by
  refine ⟨?_, ?_, ?_, ?_, ?_⟩ <;>
    simp [update_storage_providers, delete_storage_providers, set_active_per_region,
      set_price_per_region, delete_price_per_region, h]

/-- C2 witness: a non-owner caller mutates nothing on a fresh contract. -/
theorem C2_witness :
    (update_storage_providers [] "mallory" (FilMarket.new "carol")).1 =
        FilMarket.new "carol" ∧
    (delete_storage_providers [] "mallory" (FilMarket.new "carol")).1 =
        FilMarket.new "carol" ∧
    (set_active_per_region { europe := 1, asia := 2, north_america := 3, other := 4 }
        "mallory" (FilMarket.new "carol")).1 = FilMarket.new "carol" ∧
    (set_price_per_region empty_ppr "mallory" (FilMarket.new "carol")).1 =
        FilMarket.new "carol" ∧
    (delete_price_per_region [1] "mallory" (FilMarket.new "carol")).1 =
        FilMarket.new "carol" :=
  C2_theorem (by decide) [] []
    { europe := 1, asia := 2, north_america := 3, other := 4 } empty_ppr [1]

/-- C3: on a coherent store, an owner-authorized `set_price_per_region s`
followed by `get_latest_price_per_region` returns exactly `s` (same timestamp
and all other fields), with no monotonicity requirement on `s.timestamp`. -/
theorem C3_theorem {p : PricePerRegion} {st : FilMarket} {caller : String}
    (hc : caller = st.owner) (hcoh : pprCoherent st.price_per_region) :
    get_latest_price_per_region (set_price_per_region p caller st).1 = p := by
  rw [set_price_per_region_owner hc hcoh]
  simp [get_latest_price_per_region, umGet_umInsert]

/-- C3 witness: after storing a snapshot at timestamp 5, storing one at the
numerically smaller timestamp 3 makes the latter the latest. -/
theorem C3_witness :
    get_latest_price_per_region (set_price_per_region
        { europe := 1, asia := 2, north_america := 3, other := 4, global := 5,
          fil_price := 6, power := 7, timestamp := 3 } "carol"
        (set_price_per_region
          { europe := 9, asia := 9, north_america := 9, other := 9, global := 9,
            fil_price := 9, power := 9, timestamp := 5 } "carol"
          (FilMarket.new "carol")).1).1 =
      { europe := 1, asia := 2, north_america := 3, other := 4, global := 5,
        fil_price := 6, power := 7, timestamp := 3 } :=
  C3_theorem (by decide) (by decide)

/-- C4 counterexample: a single owner-authorized `set_price_per_region` call
with a zero-timestamp snapshot stores an entry under key 0, so the zero key is
reachable, contrary to the claim. -/
theorem C4_counterexample :
    umGet (run [Op.setPrice "carol"
        { europe := 1, asia := 1, north_america := 1, other := 1, global := 1,
          fil_price := 1, power := 1, timestamp := 0 }]
        (FilMarket.new "carol")).price_per_region 0 =
      some { europe := 1, asia := 1, north_america := 1, other := 1, global := 1,
             fil_price := 1, power := 1, timestamp := 0 } := by
  exact rfl

/-- C4 (amended): in every state reachable by a sequence of operations in
which `set_price_per_region` is never called with a zero-timestamp snapshot,
the price store has no entry under the zero timestamp key. -/
theorem C4_theorem {o : String} (ops : List Op) (h : ∀ op ∈ ops, zeroFreeOp op) :
    umGet (run ops (FilMarket.new o)).price_per_region 0 = none :=
  run_zeroFree ops (FilMarket.new o) (fun p hp => absurd hp (List.not_mem_nil p)) rfl h

/-- C4 witness: a zero-free trace (one upsert at timestamp 5, then deleting
timestamp 5) leaves no entry under key 0. -/
theorem C4_theorem_witness :
    umGet (run [Op.setPrice "carol"
        { europe := 1, asia := 1, north_america := 1, other := 1, global := 1,
          fil_price := 1, power := 1, timestamp := 5 },
        Op.deletePrices "carol" [5]]
        (FilMarket.new "carol")).price_per_region 0 = none :=
  C4_theorem [Op.setPrice "carol"
      { europe := 1, asia := 1, north_america := 1, other := 1, global := 1,
        fil_price := 1, power := 1, timestamp := 5 },
      Op.deletePrices "carol" [5]] (by decide)

/-- C5: `get_storage_providers` lists the stored records exactly in insertion
order of first-seen id as computed from the call trace alone (`specProviderKeys`),
for any sequence of prior mutating calls, deletions included; being a function
of the trace, the order is stable and reproducible. -/
theorem C5_theorem (o : String) (ops : List Op) :
    (get_storage_providers (run ops (FilMarket.new o))).map StorageProvider.id =
      specProviderKeys o ops := by
  have hcoh : spCoherent (run ops (FilMarket.new o)).storage_providers :=
    run_spCoherent ops (FilMarket.new o) (fun p hp => absurd hp (List.not_mem_nil p))
  have h := run_keys ops o (FilMarket.new o) rfl (fun p hp => absurd hp (List.not_mem_nil p))
  simp only [get_storage_providers]
  rw [values_ids hcoh, h]
  rfl

/-- C6: an owner-authorized `delete_price_per_region ts` removes exactly the
listed keys (absent keys are silently ignored) and leaves `latest_timestamp`
(and all other state) unchanged, even when a deleted key is the current
latest. -/
theorem C6_theorem {ts : List Nat} {caller : String} {st : FilMarket}
    (hc : caller = st.owner) :
    (∀ t, umGet (delete_price_per_region ts caller st).1.price_per_region t =
        if t ∈ ts then none else umGet st.price_per_region t) ∧
    (delete_price_per_region ts caller st).1.latest_timestamp = st.latest_timestamp ∧
    (delete_price_per_region ts caller st).1.storage_providers = st.storage_providers ∧
    (delete_price_per_region ts caller st).1.active_per_region = st.active_per_region ∧
    (delete_price_per_region ts caller st).1.owner = st.owner := by
  subst hc
  simp [delete_price_per_region, umGet_foldRemove]

/-- C6 witness: deleting the latest timestamp 5 removes its entry but leaves
the `latest_timestamp` pointer at 5 (stale pointer). -/
theorem C6_witness :
    umGet (delete_price_per_region [5] "carol"
        (set_price_per_region
          { europe := 9, asia := 9, north_america := 9, other := 9, global := 9,
            fil_price := 9, power := 9, timestamp := 5 } "carol"
          (FilMarket.new "carol")).1).1.price_per_region 5 = none ∧
    (delete_price_per_region [5] "carol"
        (set_price_per_region
          { europe := 9, asia := 9, north_america := 9, other := 9, global := 9,
            fil_price := 9, power := 9, timestamp := 5 } "carol"
          (FilMarket.new "carol")).1).1.latest_timestamp = 5 := by
  have h := @C6_theorem [5] "carol"
    (set_price_per_region
      { europe := 9, asia := 9, north_america := 9, other := 9, global := 9,
        fil_price := 9, power := 9, timestamp := 5 } "carol"
      (FilMarket.new "carol")).1 (by decide)
  refine ⟨?_, ?_⟩
  · have h5 := h.1 5
    simpa using h5
  · exact h.2.1

/-- C7 (code bug evidence): an unauthorized `delete_price_per_region` call
emits the diagnostic line of `set_price_per_region` — the operation name in
the log at lib.rs line 214 is wrong — while leaving the state unchanged.  The
emitted line does not contain the string "delete_price_per_region". -/
theorem C7_theorem :
    (delete_price_per_region [5] "mallory" (FilMarket.new "carol")).2 =
      ["set_price_per_region(): account_id mallory is not owner"] ∧
    containsSubstr "set_price_per_region(): account_id mallory is not owner"
      "delete_price_per_region" = false ∧
    (delete_price_per_region [5] "mallory" (FilMarket.new "carol")).1 =
      FilMarket.new "carol" := by
  refine ⟨rfl, by decide, rfl⟩

/-- C8: when an id is already present in a coherent store, an
owner-authorized upsert of a record for that id makes `get_storage_providers`
show, for that id, exactly the `power` and `price` just submitted
(last-write-wins on the numeric fields). -/
theorem C8_theorem {sp : StorageProvider} {caller : String} {st : FilMarket}
    (hcoh : spCoherent st.storage_providers) (hc : caller = st.owner)
    (_hpres : (umGet st.storage_providers sp.id).isSome) :
    ((get_storage_providers (update_storage_providers [sp] caller st).1).find?
        (fun r => r.id == sp.id)).map (fun r => (r.power, r.price)) =
      some (sp.power, sp.price) := by
  subst hc
  have hupd : (update_storage_providers [sp] st.owner st).1 =
      { st with storage_providers := upsertProvider st.storage_providers sp } := by
    simp [update_storage_providers]
  rw [hupd]
  simp only [get_storage_providers]
  rw [values_find (spCoherent_upsertProvider hcoh) sp.id, umGet_upsertProvider hcoh,
    if_pos rfl]
  simp only [Option.map_some']
  unfold upsertResult
  cases h : umGet st.storage_providers sp.id with
  | none => rfl
  | some r => by_cases hr : r.id = "" <;> simp [hr]

/-- C8 witness: id "a" stored with power 1 / price 1, then upserted with
power 2 / price 3; the listing shows power 2 and price 3 for "a". -/
theorem C8_witness :
    ((get_storage_providers (update_storage_providers
        [{ id := "a", region := 9, power := 2, price := 3 }] "carol"
        (update_storage_providers [{ id := "a", region := 1, power := 1, price := 1 }]
          "carol" (FilMarket.new "carol")).1).1).find?
        (fun r => r.id == "a")).map (fun r => (r.power, r.price)) =
      some ((2 : F64), (3 : F64)) :=
  @C8_theorem { id := "a", region := 9, power := 2, price := 3 } "carol"
    (update_storage_providers [{ id := "a", region := 1, power := 1, price := 1 }]
      "carol" (FilMarket.new "carol")).1 (by decide) (by decide) (by decide)

/-- C9: when a record is stored under the empty-string key (its id being the
empty string), an owner-authorized upsert of a record with id `""` overwrites
the stored region with the input's region — presence is detected via the
empty-id sentinel, so first-write-wins-on-region does not hold for id `""`. -/
theorem C9_theorem {sp r : StorageProvider} {caller : String} {st : FilMarket}
    (hc : caller = st.owner) (hr : umGet st.storage_providers "" = some r)
    (hrid : r.id = "") (hsp : sp.id = "") :
    umGet (update_storage_providers [sp] caller st).1.storage_providers "" =
      some { id := "", region := sp.region, power := sp.power, price := sp.price } := by
  subst hc
  have hupd : (update_storage_providers [sp] st.owner st).1 =
      { st with storage_providers := upsertProvider st.storage_providers sp } := by
    simp [update_storage_providers]
  rw [hupd]
  show umGet (upsertProvider st.storage_providers sp) "" = _
  unfold upsertProvider
  rw [hsp, hr]
  simp [hrid, umGet_umInsert, hsp]

/-- C9 witness: a record under key `""` with region 1 is overwritten to
region 7 by a later upsert with id `""`. -/
theorem C9_witness :
    umGet (update_storage_providers [{ id := "", region := 7, power := 8, price := 9 }]
        "carol"
        (update_storage_providers [{ id := "", region := 1, power := 2, price := 3 }]
          "carol" (FilMarket.new "carol")).1).1.storage_providers "" =
      some { id := "", region := 7, power := 8, price := 9 } :=
  @C9_theorem { id := "", region := 7, power := 8, price := 9 }
    { id := "", region := 1, power := 2, price := 3 } "carol"
    (update_storage_providers [{ id := "", region := 1, power := 2, price := 3 }]
      "carol" (FilMarket.new "carol")).1 (by decide) (by decide) (by decide) (by decide)

/-- C10: in every reachable state, each provider record is stored under a key
equal to its own `id` field and each price snapshot is stored under a key
equal to its own `timestamp` field. -/
theorem C10_theorem (o : String) (ops : List Op) :
    spCoherent (run ops (FilMarket.new o)).storage_providers ∧
    pprCoherent (run ops (FilMarket.new o)).price_per_region :=
  ⟨run_spCoherent ops (FilMarket.new o) (fun p hp => absurd hp (List.not_mem_nil p)),
   run_pprCoherent ops (FilMarket.new o) (fun p hp => absurd hp (List.not_mem_nil p))⟩

end FilMarketSpec
